import Mathlib

/-!
Shallow embedding of `src/main.rs`, a Mandelbrot escape-time plotter.

Modelling conventions:
* `Complex<f64>` from the `num` crate is embedded as `Complex64`, a pair of
  rationals; 64-bit floating-point arithmetic is modelled as exact rational
  arithmetic.
* The source escape test is `z.norm() > 4.0`, where `Complex::norm` is the
  modulus `sqrt(re*re + im*im)`.  Since both sides are nonnegative this is
  equivalent to `re*re + im*im > 16`, which is how the test is embedded
  (rationals have no square root).
* Machine integers (`u32`, `usize`, `u8`) are embedded as `Nat`; the one
  place overflow semantics matters (`255 - count as u8` in `render`) keeps
  the `% 256` of the `as u8` truncating cast explicit.
* The mutable pixel buffer is a `List Nat`; `render`'s in-place writes are
  explicit `List.set` folds; the `assert_eq!` panic is modelled as `none`.
* `save_fractal`'s concurrent band fan-out is modelled by rendering the
  bands sequentially in spawn order and reassembling (the tasks write
  disjoint slices, so the joined result is their concatenation); argument
  parsing and PNG encoding are out of scope.
-/

/-- Embedding of `num::Complex<f64>`: `f64` is modelled as `ℚ`. -/
@[ext]
structure Complex64 where
  re : ℚ
  im : ℚ
deriving DecidableEq

/-- Complex addition, as in the `num` crate. -/
def Complex64.add (a b : Complex64) : Complex64 :=
  ⟨a.re + b.re, a.im + b.im⟩

/-- Complex multiplication, as in the `num` crate. -/
def Complex64.mul (a b : Complex64) : Complex64 :=
  ⟨a.re * b.re - a.im * b.im, a.re * b.im + a.im * b.re⟩

instance : Zero Complex64 := ⟨⟨0, 0⟩⟩

instance : Add Complex64 := ⟨Complex64.add⟩

instance : Mul Complex64 := ⟨Complex64.mul⟩

/-- Squared modulus `re*re + im*im` (`Complex::norm_sqr` in the `num` crate).
The source's test `z.norm() > 4.0` is embedded as `normSq z > 16`. -/
def normSq (z : Complex64) : ℚ :=
  z.re * z.re + z.im * z.im

/-- The loop body of `calculate_escape_time`: `for i in 0..limit` with the
remaining fuel `limit - i` as the structural recursion argument.  Each
iteration updates `z = z * z + c` and returns `Some i` as soon as
`z.norm() > 4.0` (embedded as `normSq > 16`). -/
def escapeLoop (c : Complex64) : Complex64 → ℕ → ℕ → Option ℕ
  | _, _, 0 => none
  | z, i, fuel + 1 =>
    let z2 := z * z + c
    if 16 < normSq z2 then some i else escapeLoop c z2 (i + 1) fuel

/-- Embedding of `calculate_escape_time` from `src/main.rs`:
`z` starts at `Complex::zero()` and the loop runs for `i in 0..limit`. -/
def calculate_escape_time (c : Complex64) (limit : ℕ) : Option ℕ :=
  escapeLoop c 0 0 limit

/-- The Mandelbrot orbit: `orbit c 0 = 0`, `orbit c (n+1) = orbit c n ^ 2 + c`.
The value held by the source's `z` after `n` loop iterations is `orbit c n`. -/
def orbit (c : Complex64) : ℕ → Complex64
  | 0 => 0
  | n + 1 => orbit c n * orbit c n + c

/-- The escape condition the source tests at loop index `i`: after the
update at iteration `i` the variable `z` holds `orbit c (i+1)`, and the test
`z.norm() > 4.0` is `normSq (orbit c (i+1)) > 16`. -/
abbrev escapesAt (c : Complex64) (i : ℕ) : Prop :=
  16 < normSq (orbit c (i + 1))

/-- Embedding of `pixel_to_point` from `src/main.rs`.  `bounds` and `pixel`
are `(usize, usize)` pairs; the casts `as f64` become casts `ℕ → ℚ`. -/
def pixel_to_point (bounds pixel : ℕ × ℕ) (upper_left lower_right : Complex64) :
    Complex64 :=
  let width := lower_right.re - upper_left.re
  let height := upper_left.im - lower_right.im
  ⟨upper_left.re + (pixel.1 : ℚ) * width / (bounds.1 : ℚ),
   upper_left.im - (pixel.2 : ℚ) * height / (bounds.2 : ℚ)⟩

/-- The byte `render` stores for one pixel: `0` if the point never escapes
within limit 255, otherwise `255 - count as u8` where the truncating cast
`count as u8` is `count % 256`. -/
def renderPixel (bounds : ℕ × ℕ) (ul lr : Complex64) (column row : ℕ) : ℕ :=
  match calculate_escape_time (pixel_to_point bounds (column, row) ul lr) 255 with
  | none => 0
  | some count => 255 - count % 256

/-- Embedding of `render` from `src/main.rs`.  The `assert_eq!` panic on a
length mismatch is modelled as `none`; otherwise the nested
`for row / for column` loops write `pixels[row * bounds.0 + column]` via
`List.set` folds and the rewritten buffer is returned. -/
def render (pixels : List ℕ) (bounds : ℕ × ℕ) (ul lr : Complex64) :
    Option (List ℕ) :=
  if pixels.length = bounds.1 * bounds.2 then
    some ((List.range bounds.2).foldl
      (fun buf row =>
        (List.range bounds.1).foldl
          (fun buf2 column =>
            buf2.set (row * bounds.1 + column) (renderPixel bounds ul lr column row))
          buf)
      pixels)
  else none

/-- One row of output pixels, in column order. -/
def renderRow (bounds : ℕ × ℕ) (ul lr : Complex64) (row : ℕ) : List ℕ :=
  (List.range bounds.1).map (fun column => renderPixel bounds ul lr column row)

/-- The full row-major output of a render, as a flat list. -/
def renderOut (bounds : ℕ × ℕ) (ul lr : Complex64) : List ℕ :=
  (List.range bounds.2).flatMap (renderRow bounds ul lr)

/-- The sequence of buffer indices `render` writes, in write order:
`row * width + column`, rows outer, columns inner. -/
def renderWrites (bounds : ℕ × ℕ) : List ℕ :=
  (List.range bounds.2).flatMap
    (fun row => (List.range bounds.1).map (fun column => row * bounds.1 + column))

/-- Fuel-indexed chunking, structurally recursive so it evaluates by `rfl`.
`fuel` bounds the length of the list being chunked. -/
def chunksAux (m : ℕ) : ℕ → List α → List (List α)
  | 0, _ => []
  | _, [] => []
  | fuel + 1, l => l.take m :: chunksAux m fuel (l.drop m)

/-- Embedding of Rust's `slice::chunks_mut(m)` (for `m > 0`): consecutive
chunks of `m` elements, the last possibly shorter, none empty. -/
def chunksOf (m : ℕ) (l : List α) : List (List α) :=
  chunksAux m l.length l

/-- The work done for one spawned band task in `save_fractal`: the band's
index `ib.1` and slice `ib.2` determine `top`, the band's height and local
window corners exactly as in the source, and the band is rendered. -/
def bandTask (bounds : ℕ × ℕ) (rows_per_band : ℕ) (ul lr : Complex64)
    (ib : ℕ × List ℕ) : Option (List ℕ) :=
  let top := rows_per_band * ib.1
  let height := ib.2.length / bounds.1
  let band_bounds := (bounds.1, height)
  let band_upper_left := pixel_to_point bounds (0, top) ul lr
  let band_lower_right := pixel_to_point bounds (bounds.1, top + height) ul lr
  render ib.2 band_bounds band_upper_left band_lower_right

/-- Embedding of the pixel-producing core of `save_fractal` from
`src/main.rs` (argument parsing and PNG encoding are out of scope):
a zeroed buffer of `width * height` bytes is split into bands of
`rows_per_band * width` bytes with `rows_per_band = height / threads + 1`,
one task renders each band, and the buffer after the join is the
concatenation of the disjoint band slices. -/
def save_fractal (bounds : ℕ × ℕ) (ul lr : Complex64) (threads : ℕ) :
    Option (List ℕ) :=
  let rows_per_band := bounds.2 / threads + 1
  let pixels : List ℕ := List.replicate (bounds.1 * bounds.2) 0
  let bands := chunksOf (rows_per_band * bounds.1) pixels
  (bands.enum.mapM (bandTask bounds rows_per_band ul lr)).map List.flatten

/-! ## Basic lemmas about the complex embedding and the orbit -/

@[simp]
theorem Complex64.add_re (a b : Complex64) : (a + b).re = a.re + b.re := rfl

@[simp]
theorem Complex64.add_im (a b : Complex64) : (a + b).im = a.im + b.im := rfl

@[simp]
theorem Complex64.mul_re (a b : Complex64) : (a * b).re = a.re * b.re - a.im * b.im := rfl

@[simp]
theorem Complex64.mul_im (a b : Complex64) : (a * b).im = a.re * b.im + a.im * b.re := rfl

@[simp]
theorem Complex64.zero_re : (0 : Complex64).re = 0 := rfl

@[simp]
theorem Complex64.zero_im : (0 : Complex64).im = 0 := rfl

theorem orbit_one (c : Complex64) : orbit c 1 = c := by
  ext <;> simp [orbit]

/-! ## Characterization of the escape-time loop -/

theorem escapeLoop_succ (c z : Complex64) (i fuel : ℕ) :
    escapeLoop c z i (fuel + 1)
      = if 16 < normSq (z * z + c) then some i
        else escapeLoop c (z * z + c) (i + 1) fuel := rfl

theorem escapeLoop_some (c : Complex64) :
    ∀ (fuel i k : ℕ),
      escapeLoop c (orbit c i) i fuel = some k ↔
        i ≤ k ∧ k < i + fuel ∧ escapesAt c k ∧
          ∀ j, i ≤ j → j < k → ¬ escapesAt c j := by
  intro fuel
  induction fuel with
  | zero =>
    intro i k
    constructor
    · intro h
      simp [escapeLoop] at h
    · rintro ⟨h1, h2, -, -⟩
      omega
  | succ fuel ih =>
    intro i k
    have step : escapeLoop c (orbit c i) i (fuel + 1)
        = if 16 < normSq (orbit c (i + 1)) then some i
          else escapeLoop c (orbit c (i + 1)) (i + 1) fuel := rfl
    rw [step]
    by_cases hesc : escapesAt c i
    · rw [if_pos hesc]
      constructor
      · intro h
        injection h with h
        subst h
        exact ⟨Nat.le_refl _, by omega, hesc, fun j hj1 hj2 => absurd hj1 (by omega)⟩
      · rintro ⟨h1, h2, h3, h4⟩
        rcases Nat.eq_or_lt_of_le h1 with rfl | hlt
        · rfl
        · exact absurd hesc (h4 i (Nat.le_refl i) hlt)
    · rw [if_neg hesc, ih (i + 1) k]
      constructor
      · rintro ⟨h1, h2, h3, h4⟩
        refine ⟨by omega, by omega, h3, fun j hj1 hj2 => ?_⟩
        rcases Nat.eq_or_lt_of_le hj1 with rfl | hlt
        · exact hesc
        · exact h4 j hlt hj2
      · rintro ⟨h1, h2, h3, h4⟩
        refine ⟨?_, by omega, h3, fun j hj1 hj2 => h4 j (by omega) hj2⟩
        rcases Nat.eq_or_lt_of_le h1 with rfl | hlt
        · exact absurd h3 hesc
        · omega

theorem escapeLoop_none (c : Complex64) :
    ∀ (fuel i : ℕ),
      escapeLoop c (orbit c i) i fuel = none ↔
        ∀ j, i ≤ j → j < i + fuel → ¬ escapesAt c j := by
  intro fuel
  induction fuel with
  | zero =>
    intro i
    constructor
    · intro _ j hj1 hj2
      omega
    · intro _
      rfl
  | succ fuel ih =>
    intro i
    have step : escapeLoop c (orbit c i) i (fuel + 1)
        = if 16 < normSq (orbit c (i + 1)) then some i
          else escapeLoop c (orbit c (i + 1)) (i + 1) fuel := rfl
    rw [step]
    by_cases hesc : escapesAt c i
    · rw [if_pos hesc]
      constructor
      · intro h
        exact absurd h (by simp)
      · intro h
        exact absurd hesc (h i (Nat.le_refl i) (by omega))
    · rw [if_neg hesc, ih (i + 1)]
      constructor
      · intro h j hj1 hj2
        rcases Nat.eq_or_lt_of_le hj1 with rfl | hlt
        · exact hesc
        · exact h j hlt (by omega)
      · intro h j hj1 hj2
        exact h j (by omega) (by omega)

theorem calculate_escape_time_some (c : Complex64) (L k : ℕ) :
    calculate_escape_time c L = some k ↔
      k < L ∧ escapesAt c k ∧ ∀ j < k, ¬ escapesAt c j := by
  have h0 : calculate_escape_time c L = escapeLoop c (orbit c 0) 0 L := rfl
  rw [h0, escapeLoop_some]
  constructor
  · rintro ⟨-, h2, h3, h4⟩
    exact ⟨by omega, h3, fun j hj => h4 j (Nat.zero_le j) hj⟩
  · rintro ⟨h1, h2, h3⟩
    exact ⟨Nat.zero_le k, by omega, h2, fun j _ hj => h3 j hj⟩

theorem calculate_escape_time_none (c : Complex64) (L : ℕ) :
    calculate_escape_time c L = none ↔ ∀ j < L, ¬ escapesAt c j := by
  have h0 : calculate_escape_time c L = escapeLoop c (orbit c 0) 0 L := rfl
  rw [h0, escapeLoop_none]
  constructor
  · intro h j hj
    exact h j (Nat.zero_le j) (by omega)
  · intro h j _ hj
    exact h j (by omega)

/-! ## Concrete escape-time facts used by counterexamples and witnesses -/

theorem orbit_three_two : orbit ⟨3, 0⟩ 2 = ⟨12, 0⟩ := by
  ext <;> norm_num [orbit]

theorem normSq_three_gt_four : (4 : ℚ) < normSq ⟨3, 0⟩ := by
  norm_num [normSq]

theorem normSq_five_gt_sixteen : (16 : ℚ) < normSq ⟨5, 0⟩ := by
  norm_num [normSq]

theorem escape_time_three : calculate_escape_time ⟨3, 0⟩ 255 = some 1 := by
  rw [calculate_escape_time_some]
  refine ⟨by omega, ?_, ?_⟩
  · show (16 : ℚ) < normSq (orbit ⟨3, 0⟩ 2)
    rw [orbit_three_two]
    norm_num [normSq]
  · intro j hj
    interval_cases j
    show ¬ (16 : ℚ) < normSq (orbit ⟨3, 0⟩ 1)
    rw [orbit_one]
    norm_num [normSq]

/-! ## The coordinate mapper -/

theorem pixel_to_point_def (bounds pixel : ℕ × ℕ) (ul lr : Complex64) :
    pixel_to_point bounds pixel ul lr =
      ⟨ul.re + (pixel.1 : ℚ) * (lr.re - ul.re) / (bounds.1 : ℚ),
       ul.im - (pixel.2 : ℚ) * (ul.im - lr.im) / (bounds.2 : ℚ)⟩ := rfl

theorem pixel_to_point_zero (bounds : ℕ × ℕ) (ul lr : Complex64) :
    pixel_to_point bounds (0, 0) ul lr = ul := by
  unfold pixel_to_point
  ext <;> simp

theorem pixel_to_point_corner (bounds : ℕ × ℕ) (ul lr : Complex64)
    (hw : 0 < bounds.1) (hh : 0 < bounds.2) :
    pixel_to_point bounds (bounds.1, bounds.2) ul lr = lr := by
  have hw' : ((bounds.1 : ℚ)) ≠ 0 := Nat.cast_ne_zero.mpr (by omega)
  have hh' : ((bounds.2 : ℚ)) ≠ 0 := Nat.cast_ne_zero.mpr (by omega)
  unfold pixel_to_point
  ext
  · show ul.re + (bounds.1 : ℚ) * (lr.re - ul.re) / (bounds.1 : ℚ) = lr.re
    field_simp
  · show ul.im - (bounds.2 : ℚ) * (ul.im - lr.im) / (bounds.2 : ℚ) = lr.im
    field_simp

theorem pixel_to_point_band (w h top bh col r : ℕ) (ul lr : Complex64)
    (hw : 0 < w) (hh : 0 < h) (hbh : 0 < bh) :
    pixel_to_point (w, bh) (col, r)
        (pixel_to_point (w, h) (0, top) ul lr)
        (pixel_to_point (w, h) (w, top + bh) ul lr)
      = pixel_to_point (w, h) (col, top + r) ul lr := by
  have hw' : ((w : ℚ)) ≠ 0 := Nat.cast_ne_zero.mpr (by omega)
  have hh' : ((h : ℚ)) ≠ 0 := Nat.cast_ne_zero.mpr (by omega)
  have hbh' : ((bh : ℚ)) ≠ 0 := Nat.cast_ne_zero.mpr (by omega)
  unfold pixel_to_point
  ext <;> (push_cast; field_simp; try ring)

theorem renderPixel_band (w h top bh col r : ℕ) (ul lr : Complex64)
    (hw : 0 < w) (hh : 0 < h) (hbh : 0 < bh) :
    renderPixel (w, bh)
        (pixel_to_point (w, h) (0, top) ul lr)
        (pixel_to_point (w, h) (w, top + bh) ul lr) col r
      = renderPixel (w, h) ul lr col (top + r) := by
  unfold renderPixel
  rw [pixel_to_point_band w h top bh col r ul lr hw hh hbh]

theorem renderRow_band (w h top bh r : ℕ) (ul lr : Complex64)
    (hw : 0 < w) (hh : 0 < h) (hbh : 0 < bh) :
    renderRow (w, bh)
        (pixel_to_point (w, h) (0, top) ul lr)
        (pixel_to_point (w, h) (w, top + bh) ul lr) r
      = renderRow (w, h) ul lr (top + r) := by
  unfold renderRow
  exact congrArg (fun f => List.map f (List.range w))
    (funext fun col => renderPixel_band w h top bh col r ul lr hw hh hbh)

theorem renderOut_band (w h top bh : ℕ) (ul lr : Complex64)
    (hw : 0 < w) (hh : 0 < h) (hbh : 0 < bh) :
    renderOut (w, bh)
        (pixel_to_point (w, h) (0, top) ul lr)
        (pixel_to_point (w, h) (w, top + bh) ul lr)
      = (List.range' top bh).flatMap (renderRow (w, h) ul lr) := by
  unfold renderOut
  rw [List.range'_eq_map_range, List.flatMap_map]
  exact congrArg (fun f => (List.range bh).flatMap f)
    (funext fun r => renderRow_band w h top bh r ul lr hw hh hbh)

/-! ## The band renderer: the nested set-folds produce the row-major output -/

theorem set_append_length (P : List ℕ) (v s0 : ℕ) (S : List ℕ) :
    (P ++ s0 :: S).set P.length v = P ++ v :: S := by
  induction P with
  | nil => rfl
  | cons p P ih =>
    show p :: ((P ++ s0 :: S).set P.length v) = p :: (P ++ v :: S)
    rw [ih]

theorem foldl_set_inner (g : ℕ → ℕ) (base : ℕ) :
    ∀ (k j : ℕ) (P S : List ℕ), P.length = base + j → k ≤ S.length →
      (List.range' j k).foldl (fun buf col => buf.set (base + col) (g col)) (P ++ S)
        = P ++ (List.range' j k).map g ++ S.drop k := by
  intro k
  induction k with
  | zero =>
    intro j P S hP hS
    simp
  | succ k ih =>
    intro j P S hP hS
    cases S with
    | nil => simp at hS
    | cons s0 S =>
      rw [List.range'_succ]
      simp only [List.foldl_cons, List.map_cons]
      have hset : (P ++ s0 :: S).set (base + j) (g j) = P ++ g j :: S := by
        rw [← hP]
        exact set_append_length P (g j) s0 S
      rw [hset]
      have hPS : P ++ g j :: S = (P ++ [g j]) ++ S := by simp
      have hS' : k ≤ S.length := by simp at hS; omega
      rw [hPS, ih (j + 1) (P ++ [g j]) S (by simp [hP]; omega) hS']
      simp [List.append_assoc]

theorem foldl_render_rows (w : ℕ) (pix : ℕ → ℕ → ℕ) :
    ∀ (k r : ℕ) (P S : List ℕ), P.length = r * w → S.length = k * w →
      (List.range' r k).foldl
          (fun buf row =>
            (List.range w).foldl
              (fun buf2 column => buf2.set (row * w + column) (pix column row)) buf)
          (P ++ S)
        = P ++ (List.range' r k).flatMap
            (fun row => (List.range w).map (fun column => pix column row)) := by
  intro k
  induction k with
  | zero =>
    intro r P S hP hS
    obtain rfl : S = [] := List.length_eq_zero.mp (by simp [hS])
    simp
  | succ k ih =>
    intro r P S hP hS
    rw [List.range'_succ, List.foldl_cons]
    have hinner : (List.range w).foldl
          (fun buf2 column => buf2.set (r * w + column) (pix column r)) (P ++ S)
        = P ++ (List.range w).map (fun column => pix column r) ++ S.drop w := by
      have hw : w ≤ S.length := by simp [hS, Nat.succ_mul]
      have := foldl_set_inner (fun column => pix column r) (r * w) w 0 P S (by simp [hP]) hw
      rw [List.range_eq_range']
      exact this
    rw [hinner]
    have hP' : (P ++ (List.range w).map (fun column => pix column r)).length = (r + 1) * w := by
      simp [hP, Nat.succ_mul]
    have hS' : (S.drop w).length = k * w := by
      simp [hS, Nat.succ_mul]
    rw [ih (r + 1) _ (S.drop w) hP' hS']
    simp [List.append_assoc]

theorem render_eq (pixels : List ℕ) (bounds : ℕ × ℕ) (ul lr : Complex64)
    (h : pixels.length = bounds.1 * bounds.2) :
    render pixels bounds ul lr = some (renderOut bounds ul lr) := by
  obtain ⟨w, ht⟩ := bounds
  unfold render
  rw [if_pos h]
  congr 1
  have key := foldl_render_rows w
      (fun column row => renderPixel (w, ht) ul lr column row) ht 0 [] pixels
      (by simp) (by rw [h, Nat.mul_comm])
  rw [← List.range_eq_range'] at key
  simp only [List.nil_append] at key
  rw [key]
  rfl

theorem renderOut_length (bounds : ℕ × ℕ) (ul lr : Complex64) :
    (renderOut bounds ul lr).length = bounds.1 * bounds.2 := by
  unfold renderOut renderRow
  simp [List.length_flatMap, Function.comp_def, List.map_const', Nat.mul_comm]

/-! ## The scheduler's chunking -/

theorem chunksAux_nil (m fuel : ℕ) : chunksAux m fuel ([] : List α) = [] := by
  cases fuel <;> rfl

theorem drop_len_le (a : α) (t : List α) (m fuel : ℕ) (hm : 0 < m)
    (h : (a :: t).length ≤ fuel + 1) : ((a :: t).drop m).length ≤ fuel := by
  simp only [List.length_drop, List.length_cons] at *
  omega

theorem chunksAux_fuel (m : ℕ) (hm : 0 < m) :
    ∀ (fuel fuel' : ℕ) (l : List α), l.length ≤ fuel → l.length ≤ fuel' →
      chunksAux m fuel l = chunksAux m fuel' l := by
  intro fuel
  induction fuel with
  | zero =>
    intro fuel' l h h'
    obtain rfl : l = [] := List.length_eq_zero.mp (by omega)
    rw [chunksAux_nil, chunksAux_nil]
  | succ fuel ih =>
    intro fuel' l h h'
    cases l with
    | nil => rw [chunksAux_nil, chunksAux_nil]
    | cons a t =>
      cases fuel' with
      | zero => simp at h'
      | succ fuel' =>
        show (a :: t).take m :: chunksAux m fuel ((a :: t).drop m)
            = (a :: t).take m :: chunksAux m fuel' ((a :: t).drop m)
        rw [ih fuel' ((a :: t).drop m) (drop_len_le a t m fuel hm h)
          (drop_len_le a t m fuel' hm h')]

theorem chunksOf_eq (m : ℕ) (hm : 0 < m) (l : List α) (hl : l ≠ []) :
    chunksOf m l = l.take m :: chunksOf m (l.drop m) := by
  cases l with
  | nil => exact absurd rfl hl
  | cons a t =>
    show (a :: t).take m :: chunksAux m t.length ((a :: t).drop m)
        = (a :: t).take m :: chunksAux m ((a :: t).drop m).length ((a :: t).drop m)
    rw [chunksAux_fuel m hm t.length ((a :: t).drop m).length ((a :: t).drop m)
      (drop_len_le a t m t.length hm (by simp)) (Nat.le_refl _)]

theorem chunksAux_flatten (m : ℕ) (hm : 0 < m) :
    ∀ (fuel : ℕ) (l : List α), l.length ≤ fuel → (chunksAux m fuel l).flatten = l := by
  intro fuel
  induction fuel with
  | zero =>
    intro l h
    obtain rfl : l = [] := List.length_eq_zero.mp (by omega)
    rfl
  | succ fuel ih =>
    intro l h
    cases l with
    | nil => rfl
    | cons a t =>
      show ((a :: t).take m :: chunksAux m fuel ((a :: t).drop m)).flatten = a :: t
      rw [List.flatten_cons, ih _ (drop_len_le a t m fuel hm h)]
      exact List.take_append_drop m (a :: t)

theorem chunksOf_flatten (m : ℕ) (hm : 0 < m) (l : List α) :
    (chunksOf m l).flatten = l :=
  chunksAux_flatten m hm l.length l (Nat.le_refl _)

theorem chunksAux_length_le (m : ℕ) (hm : 0 < m) :
    ∀ (fuel : ℕ) (l : List α) (t : ℕ), l.length ≤ fuel → l.length ≤ t * m →
      (chunksAux m fuel l).length ≤ t := by
  intro fuel
  induction fuel with
  | zero =>
    intro l t h _
    obtain rfl : l = [] := List.length_eq_zero.mp (by omega)
    rw [chunksAux_nil]
    exact Nat.zero_le t
  | succ fuel ih =>
    intro l t h ht
    cases l with
    | nil =>
      rw [chunksAux_nil]
      exact Nat.zero_le t
    | cons a t' =>
      cases t with
      | zero => simp at ht
      | succ tt =>
        show ((a :: t').take m :: chunksAux m fuel ((a :: t').drop m)).length ≤ tt + 1
        simp only [List.length_cons]
        have hrec : (chunksAux m fuel ((a :: t').drop m)).length ≤ tt := by
          refine ih _ tt (drop_len_le a t' m fuel hm h) ?_
          simp only [Nat.succ_mul] at ht
          simp only [List.length_drop, List.length_cons]
          simp only [List.length_cons] at ht
          omega
        omega

theorem chunksOf_length_le (m : ℕ) (hm : 0 < m) (l : List α) (t : ℕ)
    (ht : l.length ≤ t * m) : (chunksOf m l).length ≤ t :=
  chunksAux_length_le m hm l.length l t (Nat.le_refl _) ht

theorem chunksAux_mem (m : ℕ) (hm : 0 < m) (w : ℕ) :
    ∀ (fuel : ℕ) (l : List α) (b : List α), l.length ≤ fuel → w ∣ m → w ∣ l.length →
      b ∈ chunksAux m fuel l → b.length ≤ m ∧ b.length ≠ 0 ∧ w ∣ b.length := by
  intro fuel
  induction fuel with
  | zero =>
    intro l b h _ _ hb
    obtain rfl : l = [] := List.length_eq_zero.mp (by omega)
    rw [chunksAux_nil] at hb
    simp at hb
  | succ fuel ih =>
    intro l b h hwm hwl hb
    cases l with
    | nil =>
      rw [chunksAux_nil] at hb
      simp at hb
    | cons a t =>
      have hstep : chunksAux m (fuel + 1) (a :: t)
          = (a :: t).take m :: chunksAux m fuel ((a :: t).drop m) := rfl
      rw [hstep] at hb
      rcases List.mem_cons.mp hb with rfl | hb'
      · refine ⟨by simp, by simp; omega, ?_⟩
        rcases Nat.le_total m (t.length + 1) with hle | hle
        · simpa [List.length_take, Nat.min_eq_left hle] using hwm
        · simpa [List.length_take, Nat.min_eq_right hle] using hwl
      · have hdrop : w ∣ ((a :: t).drop m).length := by
          simp only [List.length_drop]
          exact Nat.dvd_sub' hwl hwm
        exact ih _ b (drop_len_le a t m fuel hm h) hwm hdrop hb'

theorem chunksOf_mem (m : ℕ) (hm : 0 < m) (w : ℕ) (l : List α) (b : List α)
    (hwm : w ∣ m) (hwl : w ∣ l.length) (hb : b ∈ chunksOf m l) :
    b.length ≤ m ∧ b.length ≠ 0 ∧ w ∣ b.length :=
  chunksAux_mem m hm w l.length l b (Nat.le_refl _) hwm hwl hb

theorem chunksAux_lt_length (m : ℕ) (hm : 0 < m) :
    ∀ (fuel : ℕ) (l : List α) (i : ℕ), l.length ≤ fuel →
      (i < (chunksAux m fuel l).length ↔ m * i < l.length) := by
  intro fuel
  induction fuel with
  | zero =>
    intro l i h
    obtain rfl : l = [] := List.length_eq_zero.mp (by omega)
    rw [chunksAux_nil]
    simp
  | succ fuel ih =>
    intro l i h
    cases l with
    | nil =>
      rw [chunksAux_nil]
      simp
    | cons a t =>
      have hstep : chunksAux m (fuel + 1) (a :: t)
          = (a :: t).take m :: chunksAux m fuel ((a :: t).drop m) := rfl
      rw [hstep]
      cases i with
      | zero => simp
      | succ i =>
        rw [List.length_cons, Nat.succ_lt_succ_iff,
          ih ((a :: t).drop m) i (drop_len_le a t m fuel hm h)]
        simp only [List.length_drop, List.length_cons, Nat.mul_succ]
        omega

theorem chunksOf_lt_length (m : ℕ) (hm : 0 < m) (l : List α) (i : ℕ) :
    i < (chunksOf m l).length ↔ m * i < l.length :=
  chunksAux_lt_length m hm l.length l i (Nat.le_refl _)

theorem chunksAux_getElem? (m : ℕ) (hm : 0 < m) :
    ∀ (fuel : ℕ) (l : List α) (i : ℕ), l.length ≤ fuel →
      i < (chunksAux m fuel l).length →
      (chunksAux m fuel l)[i]? = some ((l.drop (m * i)).take m) := by
  intro fuel
  induction fuel with
  | zero =>
    intro l i h hi
    obtain rfl : l = [] := List.length_eq_zero.mp (by omega)
    rw [chunksAux_nil] at hi
    simp at hi
  | succ fuel ih =>
    intro l i h hi
    cases l with
    | nil =>
      rw [chunksAux_nil] at hi
      simp at hi
    | cons a t =>
      have hstep : chunksAux m (fuel + 1) (a :: t)
          = (a :: t).take m :: chunksAux m fuel ((a :: t).drop m) := rfl
      rw [hstep]
      cases i with
      | zero => simp
      | succ i =>
        rw [hstep, List.length_cons, Nat.succ_lt_succ_iff] at hi
        rw [List.getElem?_cons_succ,
          ih ((a :: t).drop m) i (drop_len_le a t m fuel hm h) hi,
          List.drop_drop, Nat.mul_succ]
        rw [Nat.add_comm (m * i) m]

theorem chunksOf_get (m : ℕ) (hm : 0 < m) (l : List α) (i : ℕ)
    (hi : i < (chunksOf m l).length) :
    (chunksOf m l).get ⟨i, hi⟩ = (l.drop (m * i)).take m := by
  have h1 : (chunksOf m l)[i]? = some ((l.drop (m * i)).take m) :=
    chunksAux_getElem? m hm l.length l i (Nat.le_refl _) hi
  have h2 : (chunksOf m l)[i]? = some ((chunksOf m l).get ⟨i, hi⟩) := by
    rw [List.getElem?_eq_getElem hi, List.get_eq_getElem]
  rw [h2] at h1
  exact Option.some.inj h1

theorem chunksOf_get_length (m : ℕ) (hm : 0 < m) (l : List α) (i : ℕ)
    (hi : i < (chunksOf m l).length) :
    ((chunksOf m l).get ⟨i, hi⟩).length = min m (l.length - m * i) := by
  rw [chunksOf_get m hm l i hi]
  simp [List.length_take, List.length_drop]

theorem chunksOf_get_length_of_not_last (m : ℕ) (hm : 0 < m) (l : List α) (i : ℕ)
    (hi : i + 1 < (chunksOf m l).length) :
    ((chunksOf m l).get ⟨i, Nat.lt_of_succ_lt hi⟩).length = m := by
  rw [chunksOf_get_length m hm l i (Nat.lt_of_succ_lt hi)]
  have h2 : m * (i + 1) < l.length := (chunksOf_lt_length m hm l (i + 1)).mp hi
  rw [Nat.mul_succ] at h2
  omega

theorem cover_unique (m g i j : ℕ) (hi1 : m * i ≤ g) (hi2 : g < m * i + m)
    (hj1 : m * j ≤ g) (hj2 : g < m * j + m) : i = j := by
  rcases Nat.lt_trichotomy i j with h | h | h
  · have hmul : m * (i + 1) ≤ m * j := Nat.mul_le_mul_left m h
    rw [Nat.mul_succ] at hmul
    omega
  · exact h
  · have hmul : m * (j + 1) ≤ m * i := Nat.mul_le_mul_left m h
    rw [Nat.mul_succ] at hmul
    omega

theorem chunksOf_cover (m : ℕ) (hm : 0 < m) (l : List α) (g : ℕ) (hg : g < l.length) :
    ∃! i : ℕ, ∃ hi : i < (chunksOf m l).length,
      m * i ≤ g ∧ g < m * i + ((chunksOf m l).get ⟨i, hi⟩).length := by
  have hle : m * (g / m) ≤ g := by
    rw [Nat.mul_comm]
    exact Nat.div_mul_le_self g m
  have hlt : g < m * (g / m) + m := by
    have h1 := Nat.div_add_mod g m
    have h2 : g % m < m := Nat.mod_lt g hm
    omega
  have hi : g / m < (chunksOf m l).length := by
    rw [chunksOf_lt_length m hm]
    omega
  refine ⟨g / m, ⟨hi, hle, ?_⟩, fun j hj => ?_⟩
  · rw [chunksOf_get_length m hm l _ hi]
    omega
  · obtain ⟨hj', hj1, hj2⟩ := hj
    rw [chunksOf_get_length m hm l _ hj'] at hj2
    exact cover_unique m g j (g / m) hj1 (by omega) hle hlt

/-! ## The scheduler: band decomposition reproduces the full render -/

theorem chunksOf_nil (m : ℕ) : chunksOf m ([] : List α) = [] := rfl

theorem bandTask_eq (bounds : ℕ × ℕ) (rpb : ℕ) (ul lr : Complex64) (k : ℕ)
    (b : List ℕ) :
    bandTask bounds rpb ul lr (k, b)
      = render b (bounds.1, b.length / bounds.1)
          (pixel_to_point bounds (0, rpb * k) ul lr)
          (pixel_to_point bounds (bounds.1, rpb * k + b.length / bounds.1) ul lr) := rfl

theorem bands_mapM (w h rpb : ℕ) (ul lr : Complex64)
    (hw : 0 < w) (hh : 0 < h) (hrpb : 0 < rpb) :
    ∀ (d k : ℕ) (l : List ℕ), h - rpb * k ≤ d → rpb * k < h →
      l.length = (h - rpb * k) * w →
      ((List.enumFrom k (chunksOf (rpb * w) l)).mapM
          (bandTask (w, h) rpb ul lr)).map List.flatten
        = some ((List.range' (rpb * k) (h - rpb * k)).flatMap (renderRow (w, h) ul lr)) := by
  intro d
  induction d with
  | zero =>
    intro k l hd hk hl
    omega
  | succ d ih =>
    intro k l hd hk hl
    have hm : 0 < rpb * w := Nat.mul_pos hrpb hw
    have hpos : 0 < h - rpb * k := by omega
    have hlpos : l ≠ [] := by
      intro h0
      rw [h0] at hl
      simp only [List.length_nil] at hl
      have := Nat.mul_pos hpos hw
      omega
    rw [chunksOf_eq (rpb * w) hm l hlpos, List.enumFrom_cons, List.mapM_cons]
    rcases Nat.lt_or_ge rpb (h - rpb * k) with hlt | hle
    · -- not the last band: the take has exactly rpb rows, recurse on the drop
      have htakelen : (l.take (rpb * w)).length = rpb * w := by
        rw [List.length_take, hl]
        exact Nat.min_eq_left (Nat.mul_le_mul_right w (Nat.le_of_lt hlt))
      have hlen : (l.take (rpb * w)).length / w = rpb := by
        rw [htakelen]
        exact Nat.mul_div_cancel _ hw
      have hband : bandTask (w, h) rpb ul lr (k, l.take (rpb * w))
          = some ((List.range' (rpb * k) rpb).flatMap (renderRow (w, h) ul lr)) := by
        rw [bandTask_eq, hlen]
        rw [render_eq _ (w, rpb) _ _ (by rw [htakelen, Nat.mul_comm])]
        rw [renderOut_band w h (rpb * k) rpb ul lr hw hh hrpb]
      have hsucc : rpb * (k + 1) = rpb * k + rpb := Nat.mul_succ rpb k
      have hdroplen : (l.drop (rpb * w)).length = (h - rpb * (k + 1)) * w := by
        rw [List.length_drop, hl, ← Nat.sub_mul, hsucc, Nat.sub_sub]
      have hd1 : h - rpb * (k + 1) ≤ d := by
        rw [hsucc, ← Nat.sub_sub]
        have hd' := hd
        generalize hB : h - rpb * k = B at hd' ⊢
        omega
      have hk1 : rpb * (k + 1) < h := by
        rw [hsucc]
        have hk' := hk
        have hlt' := hlt
        generalize hA : rpb * k = A at hk' hlt' ⊢
        omega
      have hrec := ih (k + 1) (l.drop (rpb * w)) hd1 hk1 hdroplen
      obtain ⟨vs, hvs, hflat⟩ := Option.map_eq_some'.mp hrec
      rw [hband, hvs]
      show some ((((List.range' (rpb * k) rpb).flatMap (renderRow (w, h) ul lr)) :: vs).flatten)
        = some ((List.range' (rpb * k) (h - rpb * k)).flatMap (renderRow (w, h) ul lr))
      rw [List.flatten_cons, hflat]
      have harith : h - rpb * (k + 1) + rpb = h - rpb * k := by
        rw [hsucc, ← Nat.sub_sub]
        have hlt' := hlt
        generalize hB : h - rpb * k = B at hlt' ⊢
        omega
      have hsplit : List.range' (rpb * k) (h - rpb * k)
          = List.range' (rpb * k) rpb ++ List.range' (rpb * (k + 1)) (h - rpb * (k + 1)) := by
        have happ := List.range'_append (rpb * k) rpb (h - rpb * (k + 1)) 1
        simp only [one_mul] at happ
        rw [← hsucc] at happ
        rw [harith] at happ
        exact happ.symm
      rw [hsplit, List.flatMap_append]
    · -- last band: the take is all of l and the drop is empty
      have htake : l.take (rpb * w) = l :=
        List.take_of_length_le (by rw [hl]; exact Nat.mul_le_mul_right w hle)
      have hdrop : l.drop (rpb * w) = [] :=
        List.drop_eq_nil_of_le (by rw [hl]; exact Nat.mul_le_mul_right w hle)
      have hlen : l.length / w = h - rpb * k := by
        rw [hl]
        exact Nat.mul_div_cancel _ hw
      have hband : bandTask (w, h) rpb ul lr (k, l.take (rpb * w))
          = some ((List.range' (rpb * k) (h - rpb * k)).flatMap (renderRow (w, h) ul lr)) := by
        rw [htake, bandTask_eq]
        show render l (w, l.length / w) _ _ = _
        rw [hlen]
        rw [render_eq l (w, h - rpb * k) _ _ (by rw [hl, Nat.mul_comm])]
        rw [renderOut_band w h (rpb * k) (h - rpb * k) ul lr hw hh hpos]
      rw [hband, hdrop, chunksOf_nil]
      show (Option.map List.flatten
        (some ((List.range' (rpb * k) (h - rpb * k)).flatMap (renderRow (w, h) ul lr))
          >>= fun x => (List.mapM (bandTask (w, h) rpb ul lr) [] >>= fun xs => pure (x :: xs)))) = _
      rw [List.mapM_nil]
      simp

theorem save_fractal_eq (w h T : ℕ) (ul lr : Complex64)
    (hw : 0 < w) (hh : 0 < h) (hT : 0 < T) :
    save_fractal (w, h) ul lr T = some (renderOut (w, h) ul lr) := by
  have hrpb : 0 < h / T + 1 := Nat.succ_pos _
  have hlen : (List.replicate (w * h) (0 : ℕ)).length = (h - (h / T + 1) * 0) * w := by
    simp [Nat.mul_comm]
  have h2 := bands_mapM w h (h / T + 1) ul lr hw hh hrpb h 0 (List.replicate (w * h) 0)
      (by simp) (by simp; omega) hlen
  simp only [Nat.mul_zero, Nat.sub_zero] at h2
  show (((chunksOf ((h / T + 1) * w) (List.replicate (w * h) 0)).enum).mapM
      (bandTask (w, h) (h / T + 1) ul lr)).map List.flatten
    = some (renderOut (w, h) ul lr)
  rw [List.enum_eq_enumFrom, h2]
  unfold renderOut
  rw [List.range_eq_range']

/-! ## The write trace of one render is exactly one write per buffer index -/

theorem rowWrites (w : ℕ) :
    ∀ (k r : ℕ), (List.range' r k).flatMap
        (fun row => (List.range w).map (fun column => row * w + column))
      = List.range' (r * w) (k * w) := by
  intro k
  induction k with
  | zero => intro r; simp
  | succ k ih =>
    intro r
    rw [List.range'_succ, List.flatMap_cons, ih (r + 1)]
    have hmap : (List.range w).map (fun column => r * w + column)
        = List.range' (r * w) w := by
      rw [List.range'_eq_map_range]
    have happ := List.range'_append (r * w) w (k * w) 1
    simp only [one_mul] at happ
    rw [hmap, show (r + 1) * w = r * w + w from by rw [Nat.succ_mul], happ,
      show k * w + w = (k + 1) * w from by rw [Nat.succ_mul]]

theorem renderWrites_eq (bounds : ℕ × ℕ) :
    renderWrites bounds = List.range (bounds.1 * bounds.2) := by
  obtain ⟨w, ht⟩ := bounds
  unfold renderWrites
  rw [List.range_eq_range', rowWrites w ht 0, Nat.zero_mul, Nat.mul_comm ht w,
    ← List.range_eq_range']

/-! ## Helper facts for witnesses -/

theorem escape_pixel_three :
    calculate_escape_time (pixel_to_point (1, 1) (0, 0) ⟨3, 0⟩ ⟨9, 9⟩) 255 = some 1 := by
  rw [pixel_to_point_zero (1, 1) ⟨3, 0⟩ ⟨9, 9⟩]
  exact escape_time_three

/-! ## Claim theorems -/

/-- C1 counterexample: the point c = 3 has squared modulus 9 > 4, yet
`calculate_escape_time` returns escape index 1, not 0, because the code's
test is `z.norm() > 4.0`, i.e. squared modulus > 16, not > 4. -/
theorem C1_counterexample :
    (4 : ℚ) < normSq ⟨3, 0⟩ ∧ calculate_escape_time ⟨3, 0⟩ 255 = some 1
      ∧ calculate_escape_time ⟨3, 0⟩ 255 ≠ some 0 :=
  ⟨normSq_three_gt_four, escape_time_three, by rw [escape_time_three]; simp⟩

/-- C1 (amended): for every c and positive limit L, `calculate_escape_time`
returns the smallest index i < L at which the orbit value z(i+1) has modulus
exceeding the code's escape radius 4 (squared modulus > 16), `none` when no
index below L escapes, and in particular escape index 0 for any c whose
squared modulus exceeds 16. -/
theorem C1_escape_time_spec (c : Complex64) (L : ℕ) :
    (∀ i, calculate_escape_time c L = some i ↔
        i < L ∧ escapesAt c i ∧ ∀ j < i, ¬ escapesAt c j)
    ∧ (calculate_escape_time c L = none ↔ ∀ j < L, ¬ escapesAt c j)
    ∧ (0 < L → 16 < normSq c → calculate_escape_time c L = some 0) := by
  refine ⟨fun i => calculate_escape_time_some c L i, calculate_escape_time_none c L, ?_⟩
  intro hL hc
  rw [calculate_escape_time_some]
  refine ⟨hL, ?_, fun j hj => absurd hj (Nat.not_lt_zero j)⟩
  show (16 : ℚ) < normSq (orbit c 1)
  rw [orbit_one]
  exact hc

/-- Witness for C1: the point c = 5 has squared modulus 25 > 16 and indeed
escapes at index 0 with limit 255. -/
theorem C1_escape_time_spec_witness : calculate_escape_time ⟨5, 0⟩ 255 = some 0 :=
  (C1_escape_time_spec ⟨5, 0⟩ 255).2.2 (by decide) normSq_five_gt_sixteen

/-- C2: for positive bounds and any positive concurrency, the banded render
equals the T = 1 render byte for byte, and both equal one full-image render
of a zeroed buffer. -/
theorem C2_partition_independence (bounds : ℕ × ℕ) (ul lr : Complex64) (T : ℕ)
    (hw : 0 < bounds.1) (hh : 0 < bounds.2) (hT : 0 < T) :
    save_fractal bounds ul lr T = save_fractal bounds ul lr 1
    ∧ save_fractal bounds ul lr T
        = render (List.replicate (bounds.1 * bounds.2) 0) bounds ul lr := by
  obtain ⟨w, h⟩ := bounds
  have h1 := save_fractal_eq w h T ul lr hw hh hT
  have h2 := save_fractal_eq w h 1 ul lr hw hh Nat.one_pos
  have h3 := render_eq (List.replicate (w * h) 0) (w, h) ul lr (by simp)
  exact ⟨by rw [h1, h2], by rw [h1, h3]⟩

/-- Witness for C2: a 2x3 image split into two bands (concurrency 2) renders
identically to the single-band render. -/
theorem C2_partition_independence_witness :
    save_fractal (2, 3) ⟨10, 10⟩ ⟨20, 4⟩ 2 = save_fractal (2, 3) ⟨10, 10⟩ ⟨20, 4⟩ 1 :=
  (C2_partition_independence (2, 3) ⟨10, 10⟩ ⟨20, 4⟩ 2 (by decide) (by decide) (by decide)).1

/-- C3: `pixel_to_point` computes exactly the interpolation formula of the
spec, and the spec's example (bounds 100x100, pixel (25,75), window corners
(-1,1) and (1,-1)) yields (-0.5,-0.5). -/
theorem C3_pixel_to_point_formula :
    (∀ (bounds pixel : ℕ × ℕ) (ul lr : Complex64),
        pixel_to_point bounds pixel ul lr
          = ⟨ul.re + (pixel.1 : ℚ) * (lr.re - ul.re) / (bounds.1 : ℚ),
             ul.im - (pixel.2 : ℚ) * (ul.im - lr.im) / (bounds.2 : ℚ)⟩)
    ∧ pixel_to_point (100, 100) (25, 75) ⟨-1, 1⟩ ⟨1, -1⟩ = ⟨-(1 / 2 : ℚ), -(1 / 2 : ℚ)⟩ := by
  constructor
  · intro bounds pixel ul lr
    rfl
  · ext <;> norm_num [pixel_to_point]

/-- C4: the mapper sends pixel (0,0) exactly to the window's upper-left
corner, and the exclusive far-corner pixel (width, height) exactly to the
lower-right corner (f64 arithmetic modelled as exact rationals). -/
theorem C4_corner_mapping (bounds : ℕ × ℕ) (ul lr : Complex64)
    (hw : 0 < bounds.1) (hh : 0 < bounds.2) :
    pixel_to_point bounds (0, 0) ul lr = ul
    ∧ pixel_to_point bounds (bounds.1, bounds.2) ul lr = lr :=
  ⟨pixel_to_point_zero bounds ul lr, pixel_to_point_corner bounds ul lr hw hh⟩

/-- Witness for C4 on a concrete 2x3 image and window. -/
theorem C4_corner_mapping_witness :
    pixel_to_point (2, 3) (0, 0) ⟨1, 2⟩ ⟨3, 4⟩ = ⟨1, 2⟩
    ∧ pixel_to_point (2, 3) (2, 3) ⟨1, 2⟩ ⟨3, 4⟩ = ⟨3, 4⟩ :=
  C4_corner_mapping (2, 3) ⟨1, 2⟩ ⟨3, 4⟩ (by decide) (by decide)

/-- C5: every escape result is strictly below the limit; with limit 255 the
index is at most 254, the stored byte is 255 - i in [1, 255] with the u8 cast
`i % 256` and the subtraction never wrapping, and a non-escaping pixel is
written as 0. -/
theorem C5_escape_index_bound :
    (∀ (c : Complex64) (L i : ℕ), calculate_escape_time c L = some i → i < L)
    ∧ (∀ (bounds : ℕ × ℕ) (ul lr : Complex64) (column row i : ℕ),
        calculate_escape_time (pixel_to_point bounds (column, row) ul lr) 255 = some i →
          i ≤ 254 ∧ 255 - i % 256 = 255 - i
            ∧ renderPixel bounds ul lr column row = 255 - i
            ∧ 1 ≤ renderPixel bounds ul lr column row
            ∧ renderPixel bounds ul lr column row ≤ 255)
    ∧ (∀ (bounds : ℕ × ℕ) (ul lr : Complex64) (column row : ℕ),
        calculate_escape_time (pixel_to_point bounds (column, row) ul lr) 255 = none →
          renderPixel bounds ul lr column row = 0) := by
  have hlt : ∀ (c : Complex64) (L i : ℕ), calculate_escape_time c L = some i → i < L := by
    intro c L i hsome
    exact ((calculate_escape_time_some c L i).mp hsome).1
  refine ⟨hlt, ?_, ?_⟩
  · intro bounds ul lr column row i hsome
    have hi : i < 255 := hlt _ 255 i hsome
    have hmod : i % 256 = i := Nat.mod_eq_of_lt (by omega)
    have hpix : renderPixel bounds ul lr column row = 255 - i % 256 := by
      unfold renderPixel
      rw [hsome]
    refine ⟨by omega, by rw [hmod], by rw [hpix, hmod], ?_, ?_⟩
    · rw [hpix, hmod]
      omega
    · rw [hpix, hmod]
      omega
  · intro bounds ul lr column row hnone
    unfold renderPixel
    rw [hnone]

/-- Witness for C5: the pixel mapping to c = 3 escapes at index 1 and is
stored as byte 254. -/
theorem C5_escape_index_bound_witness :
    (1 : ℕ) ≤ 254 ∧ 255 - 1 % 256 = 255 - 1
      ∧ renderPixel (1, 1) ⟨3, 0⟩ ⟨9, 9⟩ 0 0 = 255 - 1
      ∧ 1 ≤ renderPixel (1, 1) ⟨3, 0⟩ ⟨9, 9⟩ 0 0
      ∧ renderPixel (1, 1) ⟨3, 0⟩ ⟨9, 9⟩ 0 0 ≤ 255 :=
  C5_escape_index_bound.2.1 (1, 1) ⟨3, 0⟩ ⟨9, 9⟩ 0 0 1 escape_pixel_three

/-- C6: with rows_per_band = height/threads + 1, the chunking partitions the
buffer into consecutive row-aligned bands (their concatenation is the whole
buffer, each band at most rows_per_band rows, each a multiple of the width)
and produces at most `threads` bands. -/
theorem C6_scheduler_partition (w h T : ℕ) (hw : 0 < w) (hh : 0 < h) (hT : 0 < T) :
    (chunksOf ((h / T + 1) * w) (List.replicate (w * h) (0 : ℕ))).flatten
        = List.replicate (w * h) 0
    ∧ (chunksOf ((h / T + 1) * w) (List.replicate (w * h) (0 : ℕ))).length ≤ T
    ∧ ∀ b ∈ chunksOf ((h / T + 1) * w) (List.replicate (w * h) (0 : ℕ)),
        b.length ≤ (h / T + 1) * w ∧ w ∣ b.length := by
  have hm : 0 < (h / T + 1) * w := Nat.mul_pos (Nat.succ_pos _) hw
  refine ⟨chunksOf_flatten _ hm _, ?_, ?_⟩
  · apply chunksOf_length_le _ hm _ T
    rw [List.length_replicate]
    have hdiv := Nat.div_add_mod h T
    have hmod : h % T < T := Nat.mod_lt h hT
    have hhh : h ≤ T * (h / T + 1) := by
      rw [Nat.mul_succ]
      omega
    calc w * h ≤ w * (T * (h / T + 1)) := Nat.mul_le_mul_left w hhh
      _ = T * ((h / T + 1) * w) := by ring
  · intro b hb
    have hmem := chunksOf_mem _ hm w _ b (dvd_mul_left w _)
      (by rw [List.length_replicate]; exact dvd_mul_right w h) hb
    exact ⟨hmem.1, hmem.2.2⟩

/-- Witness for C6: height 10 at concurrency 2 produces at most 2 bands. -/
theorem C6_scheduler_partition_witness :
    (chunksOf ((10 / 2 + 1) * 1) (List.replicate (1 * 10) (0 : ℕ))).length ≤ 2 :=
  (C6_scheduler_partition 1 10 2 (by decide) (by decide) (by decide)).2.1

/-- C7 counterexample: with width 1, height 10, concurrency 2 the bands have
6 and 4 rows, so the first band (not the last) has 6 rows, while
ceil(10/2) = (10+2-1)/2 = 5. -/
theorem C7_counterexample :
    (chunksOf ((10 / 2 + 1) * 1) (List.replicate (1 * 10) (0 : ℕ))).map List.length
        = [6, 4]
    ∧ (10 + 2 - 1) / 2 = 5 ∧ (6 : ℕ) ≠ 5 := by decide

/-- C7 (amended): every band except the last has exactly
rows_per_band = height/threads + 1 rows (floor plus one, which differs from
ceil(height/threads) when threads divides height); the last band is never
taller than that. -/
theorem C7_band_heights (w h T : ℕ) (hw : 0 < w) (hh : 0 < h) (hT : 0 < T) :
    (∀ i (hi : i + 1 < (chunksOf ((h / T + 1) * w)
          (List.replicate (w * h) (0 : ℕ))).length),
        ((chunksOf ((h / T + 1) * w) (List.replicate (w * h) (0 : ℕ))).get
            ⟨i, Nat.lt_of_succ_lt hi⟩).length = (h / T + 1) * w
        ∧ ((chunksOf ((h / T + 1) * w) (List.replicate (w * h) (0 : ℕ))).get
            ⟨i, Nat.lt_of_succ_lt hi⟩).length / w = h / T + 1)
    ∧ ∀ b ∈ chunksOf ((h / T + 1) * w) (List.replicate (w * h) (0 : ℕ)),
        b.length / w ≤ h / T + 1 := by
  have hm : 0 < (h / T + 1) * w := Nat.mul_pos (Nat.succ_pos _) hw
  constructor
  · intro i hi
    have hlen := chunksOf_get_length_of_not_last _ hm
      (List.replicate (w * h) (0 : ℕ)) i hi
    refine ⟨hlen, ?_⟩
    rw [hlen]
    exact Nat.mul_div_cancel _ hw
  · intro b hb
    have hble : b.length ≤ (h / T + 1) * w :=
      (chunksOf_mem _ hm 1 _ b (one_dvd _) (one_dvd _) hb).1
    have := Nat.div_le_div_right (c := w) hble
    rwa [Nat.mul_div_cancel _ hw] at this

/-- Witness for C7: the first of the two bands for height 10, concurrency 2
has exactly 10/2 + 1 = 6 rows. -/
theorem C7_band_heights_witness :
    ((chunksOf ((10 / 2 + 1) * 1) (List.replicate (1 * 10) (0 : ℕ))).get
        ⟨0, Nat.lt_of_succ_lt (by decide)⟩).length / 1 = 10 / 2 + 1 :=
  ((C7_band_heights 1 10 2 (by decide) (by decide) (by decide)).1 0 (by decide)).2

/-- C8: every global pixel index below width*height belongs to exactly one
scheduler band, and a render writes exactly the indices 0..width*height-1,
each exactly once, in ascending row-major order. -/
theorem C8_exactly_once (w h T : ℕ) (hw : 0 < w) (hh : 0 < h) (hT : 0 < T) :
    (∀ g, g < w * h →
        ∃! i : ℕ, ∃ hi : i < (chunksOf ((h / T + 1) * w)
            (List.replicate (w * h) (0 : ℕ))).length,
          (h / T + 1) * w * i ≤ g
            ∧ g < (h / T + 1) * w * i
                + ((chunksOf ((h / T + 1) * w)
                    (List.replicate (w * h) (0 : ℕ))).get ⟨i, hi⟩).length)
    ∧ (∀ bounds : ℕ × ℕ, renderWrites bounds = List.range (bounds.1 * bounds.2)) := by
  have hm : 0 < (h / T + 1) * w := Nat.mul_pos (Nat.succ_pos _) hw
  refine ⟨fun g hg => ?_, renderWrites_eq⟩
  exact chunksOf_cover ((h / T + 1) * w) hm (List.replicate (w * h) (0 : ℕ)) g
    (by simpa using hg)

/-- Witness for C8: index 0 of a 1x2 buffer lies in exactly one band. -/
theorem C8_exactly_once_witness :
    ∃! i : ℕ, ∃ hi : i < (chunksOf ((2 / 1 + 1) * 1)
        (List.replicate (1 * 2) (0 : ℕ))).length,
      (2 / 1 + 1) * 1 * i ≤ 0
        ∧ 0 < (2 / 1 + 1) * 1 * i
            + ((chunksOf ((2 / 1 + 1) * 1)
                (List.replicate (1 * 2) (0 : ℕ))).get ⟨i, hi⟩).length :=
  (C8_exactly_once 1 2 1 (by decide) (by decide) (by decide)).1 0 (by decide)

/-- C9: render fails (returns none, writing nothing) exactly when the buffer
length differs from width*height, and on a matching length returns the full
row-major output, whose length equals the input buffer's. -/
theorem C9_length_guard (pixels : List ℕ) (bounds : ℕ × ℕ) (ul lr : Complex64) :
    (render pixels bounds ul lr = none ↔ pixels.length ≠ bounds.1 * bounds.2)
    ∧ (∀ out, render pixels bounds ul lr = some out →
        out = renderOut bounds ul lr ∧ out.length = pixels.length) := by
  constructor
  · constructor
    · intro hnone heq
      rw [render_eq pixels bounds ul lr heq] at hnone
      exact Option.noConfusion hnone
    · intro hne
      unfold render
      rw [if_neg hne]
  · intro out hsome
    have hlen : pixels.length = bounds.1 * bounds.2 := by
      by_contra hne
      unfold render at hsome
      rw [if_neg hne] at hsome
      exact Option.noConfusion hsome
    rw [render_eq pixels bounds ul lr hlen] at hsome
    have hout : out = renderOut bounds ul lr := (Option.some.inj hsome).symm
    refine ⟨hout, ?_⟩
    rw [hout, renderOut_length, hlen]

/-- Witness for C9: a 3-byte buffer with 1x2 bounds is rejected. -/
theorem C9_length_guard_witness :
    render [0, 0, 0] (1, 2) ⟨0, 0⟩ ⟨1, 1⟩ = none :=
  (C9_length_guard [0, 0, 0] (1, 2) ⟨0, 0⟩ ⟨1, 1⟩).1.mpr (by decide)

/-- C10: every band slice's length is an exact multiple of the width, so the
computed band height band.length/width is exact and the length assertion in
render succeeds for every spawned band task. -/
theorem C10_band_alignment (w h T : ℕ) (ul lr : Complex64)
    (hw : 0 < w) (hh : 0 < h) (hT : 0 < T) :
    ∀ b ∈ chunksOf ((h / T + 1) * w) (List.replicate (w * h) (0 : ℕ)),
      w ∣ b.length
      ∧ b.length = w * (b.length / w)
      ∧ render b (w, b.length / w) ul lr ≠ none := by
  intro b hb
  have hm : 0 < (h / T + 1) * w := Nat.mul_pos (Nat.succ_pos _) hw
  have hmem := chunksOf_mem _ hm w _ b (dvd_mul_left w _)
    (by rw [List.length_replicate]; exact dvd_mul_right w h) hb
  have hdvd : w ∣ b.length := hmem.2.2
  have hexact : b.length = w * (b.length / w) := (Nat.mul_div_cancel' hdvd).symm
  refine ⟨hdvd, hexact, ?_⟩
  rw [render_eq b (w, b.length / w) ul lr hexact]
  simp

/-- Witness for C10 on the 6-row first band of a width-1, height-10 image at
concurrency 2. -/
theorem C10_band_alignment_witness :
    (1 : ℕ) ∣ (List.replicate 6 (0 : ℕ)).length
    ∧ (List.replicate 6 (0 : ℕ)).length
        = 1 * ((List.replicate 6 (0 : ℕ)).length / 1)
    ∧ render (List.replicate 6 (0 : ℕ))
        (1, (List.replicate 6 (0 : ℕ)).length / 1) ⟨0, 0⟩ ⟨1, 1⟩ ≠ none :=
  C10_band_alignment 1 10 2 ⟨0, 0⟩ ⟨1, 1⟩ (by decide) (by decide) (by decide)
    (List.replicate 6 0) (by decide)
